import Mathlib

/-!
Verification development for the L96_demo repository's time-integration
engine: the slow-variable tendency, the Euler-loop trajectory driver `GCM`
from the notebook gcm-analogue.ipynb, and the RK4-based drivers
`GCM_without_parameterization` and `GCM_network` from the notebook
L96_online_implement_NN.ipynb.  State vectors are modelled as lists of
rationals (exact arithmetic in place of numpy floating point); the NaN
"unset" marker used to initialize history rows is modelled by `Option`,
with `none` standing for a row still holding its NaN initialization.
-/

/-- Componentwise sum of two state vectors, modelling numpy elementwise `+`
on equal-length arrays. -/
def vadd (a b : List ℚ) : List ℚ := List.zipWith (· + ·) a b

/-- Componentwise difference of two state vectors, modelling numpy
elementwise `-` on equal-length arrays. -/
def vsub (a b : List ℚ) : List ℚ := List.zipWith (· - ·) a b

/-- Scalar times state vector, modelling numpy scalar broadcasting. -/
def smulV (c : ℚ) (a : List ℚ) : List ℚ := a.map (fun x => c * x)

/-- Cyclic indexed access `X[i mod K]`, modelling numpy negative-index
wrap-around together with the explicit modular index arithmetic of the L96
tendency (indices `k-1`, `k-2`, `k+1` taken modulo `K`). -/
def cyclicGet (X : List ℚ) (i : ℤ) : ℚ := X.getD (i % (X.length : ℤ)).toNat 0

/-- Modelled from the spec: `L96_eq1_xdot` lives in L96_model.py, which is
not under src/ (the notebooks only import it).  Following spec section 4.1
with the default all-zero coupling correction (the notebook drivers never
pass `U`): entry `k` of the slow tendency is
`-X[k-1]*(X[k-2] - X[k+1]) - X[k] + F`, indices taken modulo `K`. -/
def L96_eq1_xdot (X : List ℚ) (F : ℚ) : List ℚ :=
  (List.range X.length).map fun k : ℕ =>
    -(cyclicGet X ((k : ℤ) - 1)) * (cyclicGet X ((k : ℤ) - 2) - cyclicGet X ((k : ℤ) + 1))
      - cyclicGet X (k : ℤ) + F

/-- Horner evaluation of a polynomial given by its coefficient list, highest
degree first, modelling `np.polyval(p, x)` at a scalar. -/
def polyval (p : List ℚ) (x : ℚ) : ℚ := p.foldl (fun acc c => acc * x + c) 0

/-- Elementwise `np.polyval(p, X)` on a state vector. -/
def polyvalVec (p : List ℚ) (X : List ℚ) : List ℚ := X.map (polyval p)

/-- Largest absolute value of a component, modelling `np.abs(X).max()` for
the nonempty state vectors the drivers are run on. -/
def maxAbs (X : List ℚ) : ℚ := X.foldl (fun a x => max a |x|) 0

/-- One loop-body state update of `GCM` in gcm-analogue.ipynb:
`X = X + dt * (L96_eq1_xdot(X, F) - np.polyval(param, X))`. -/
def gcmStep (F dt : ℚ) (param : List ℚ) (X : List ℚ) : List ℚ :=
  vadd X (smulV dt (vsub (L96_eq1_xdot X F) (polyvalVec param X)))

/-- Loop of `GCM` in gcm-analogue.ipynb, `for n in range(nt)` unrolled as a
countdown `m` of remaining iterations with `n` the current index: the body
computes the Euler update, breaks without storing when
`np.abs(X).max() > 1e3`, and otherwise stores `hist[n] = X` and
`time[n] = dt * (n + 1)`. -/
def GCMloop (F dt : ℚ) (param : List ℚ) :
    ℕ → ℕ → List ℚ → List (Option (List ℚ)) → List ℚ →
      List (Option (List ℚ)) × List ℚ
  | 0, _, _, hist, tseq => (hist, tseq)
  | m + 1, n, X, hist, tseq =>
    let X' := gcmStep F dt param X
    if 1000 < maxAbs X' then (hist, tseq)
    else GCMloop F dt param m (n + 1) X'
      (hist.set n (some X')) (tseq.set n (dt * ((n : ℚ) + 1)))

/-- Driver `GCM(X0, F, dt, nt, param)` of gcm-analogue.ipynb: `time` starts
as `dt * np.arange(nt)`, `hist` as `np.zeros((nt, len(X0))) * np.nan`
(every row the NaN unset marker, modelled `none`), `X` as `X0.copy()`, then
the loop above runs; the pair `(hist, time)` is returned. -/
def GCM (X0 : List ℚ) (F dt : ℚ) (nt : ℕ) (param : List ℚ) :
    List (Option (List ℚ)) × List ℚ :=
  GCMloop F dt param nt 0 X0 (List.replicate nt none)
    ((List.range nt).map fun n : ℕ => dt * (n : ℚ))

/-- Modelled from the spec: the time-stepping function `RK4` lives in
L96_model.py, which is not under src/ (the notebooks only import it and
pass it as `time_stepping`, calling it as `time_stepping(rhs, dt, X, param)`
with `param` in the auxiliary-argument slot of the tendency signature
`f(state, t)`).  Following spec section 4.4: four tendency evaluations with
the classical weighted combination `(k1 + 2*k2 + 2*k3 + k4)/6`, the
auxiliary argument forwarded unchanged to the tendency function (the
notebook calls pass lists and network objects in that slot, so no
arithmetic is performed on it). -/
def RK4 {P : Type} (fn : List ℚ → P → List ℚ) (dt : ℚ) (X : List ℚ) (p : P) :
    List ℚ :=
  let k1 := fn X p
  let k2 := fn (vadd X (smulV (dt / 2) k1)) p
  let k3 := fn (vadd X (smulV (dt / 2) k2)) p
  let k4 := fn (vadd X (smulV dt k3)) p
  vadd X (smulV (dt / 6) (vadd (vadd k1 k4) (smulV 2 (vadd k2 k3))))

/-- Shared loop of the `__call__` methods of `GCM_without_parameterization`
and `GCM_network` in L96_online_implement_NN.ipynb (their bodies are
textually identical given the `rhs` method): `for n in range(nt)` unrolled
as a countdown `m` with `n` the current index; the body computes
`X = self.time_stepping(self.rhs, dt, X, param)` and stores
`hist[n+1] = X` and `time[n+1] = dt * (n + 1)`, with no divergence check. -/
def gcmClassLoop {P : Type} (rhs : List ℚ → P → List ℚ) (dt : ℚ) (p : P) :
    ℕ → ℕ → List ℚ → List (Option (List ℚ)) → List ℚ →
      List (Option (List ℚ)) × List ℚ
  | 0, _, _, hist, tseq => (hist, tseq)
  | m + 1, n, X, hist, tseq =>
    let X' := RK4 rhs dt X p
    gcmClassLoop rhs dt p m (n + 1) X'
      (hist.set (n + 1) (some X')) (tseq.set (n + 1) (dt * ((n : ℚ) + 1)))

/-- Shared body of the `__call__` methods of the two GCM classes in
L96_online_implement_NN.ipynb: `time` starts as `dt * np.arange(nt + 1)`,
`hist` as `np.zeros((nt + 1, len(X0))) * np.nan` (all rows the NaN unset
marker), `X` as `X0.copy()`; then `hist[0] = X` and the loop above runs;
the pair `(hist, time)` is returned. -/
def gcmClassDriver {P : Type} (rhs : List ℚ → P → List ℚ) (X0 : List ℚ)
    (dt : ℚ) (nt : ℕ) (p : P) : List (Option (List ℚ)) × List ℚ :=
  gcmClassLoop rhs dt p nt 0 X0
    ((List.replicate (nt + 1) (none : Option (List ℚ))).set 0 (some X0))
    ((List.range (nt + 1)).map fun n : ℕ => dt * (n : ℚ))

/-- Method `GCM_without_parameterization.rhs` of
L96_online_implement_NN.ipynb: `return L96_eq1_xdot(X, self.F)`, ignoring
its second argument (written `_` in the source). -/
def GCM_wp_rhs {P : Type} (F : ℚ) (X : List ℚ) (_p : P) : List ℚ :=
  L96_eq1_xdot X F

/-- Method `GCM_without_parameterization.__call__` of
L96_online_implement_NN.ipynb with `self.F = F` and the default
`time_stepping=RK4`, run on initial condition `X0` with step `dt`, step
count `nt` and closure parameter `param`. -/
def GCM_without_parameterization {P : Type} (F : ℚ) (X0 : List ℚ) (dt : ℚ)
    (nt : ℕ) (param : P) : List (Option (List ℚ)) × List ℚ :=
  gcmClassDriver (GCM_wp_rhs F) X0 dt nt param

/-- Method `GCM_network.rhs` of L96_online_implement_NN.ipynb:
`return L96_eq1_xdot(X, self.F) + np.squeeze(self.network(X_torch).data.numpy())`,
ignoring its second argument.  The stored network is abstracted as a pure
function `network` from the slow state vector to a correction vector (the
torch unsqueeze/squeeze plumbing only adapts array shapes); the network
output is ADDED to the slow tendency. -/
def GCM_network_rhs {P : Type} (F : ℚ) (network : List ℚ → List ℚ)
    (X : List ℚ) (_p : P) : List ℚ :=
  vadd (L96_eq1_xdot X F) (network X)

/-- Method `GCM_network.__call__` of L96_online_implement_NN.ipynb with
`self.F = F`, `self.network = network` and the default
`time_stepping=RK4`. -/
def GCM_network {P : Type} (F : ℚ) (network : List ℚ → List ℚ)
    (X0 : List ℚ) (dt : ℚ) (nt : ℕ) (param : P) :
    List (Option (List ℚ)) × List ℚ :=
  gcmClassDriver (GCM_network_rhs F network) X0 dt nt param

/-- Store of the local array-valued variables of a driver call, together
with the caller-owned initial-condition array `callerX0`.  Mutating numpy
statements of the source are translated to updates of the corresponding
field: a statement that writes into an array updates that array's field,
while numpy expressions like `X + dt * (...)` allocate a fresh array, so
rebinding `X` updates only the `X` field. -/
structure GCMStore where
  callerX0 : List ℚ
  X : List ℚ
  hist : List (Option (List ℚ))
  tseq : List ℚ
deriving Repr, DecidableEq

/-- Loop of `GCM` in gcm-analogue.ipynb translated statement-by-statement
over the store: `X = X + dt * (...)` rebinds `X` to a fresh array,
`hist[n] = X` writes row `n` of `hist`, `time[n] = dt*(n+1)` writes entry
`n` of `time`; no statement targets the caller's `X0` array. -/
def GCMloopStore (F dt : ℚ) (param : List ℚ) : ℕ → ℕ → GCMStore → GCMStore
  | 0, _, s => s
  | m + 1, n, s =>
    let X' := gcmStep F dt param s.X
    if 1000 < maxAbs X' then { s with X := X' }
    else GCMloopStore F dt param m (n + 1)
      { s with X := X', hist := s.hist.set n (some X'),
               tseq := s.tseq.set n (dt * ((n : ℚ) + 1)) }

/-- Call of `GCM(X0, F, dt, nt, param)` over the store: `X = X0.copy()`
copies the contents of the caller's array into the fresh array bound to
`X`, so the `X` field starts equal to `callerX0` but is a distinct
location. -/
def GCMcallStore (X0 : List ℚ) (F dt : ℚ) (nt : ℕ) (param : List ℚ) :
    GCMStore :=
  GCMloopStore F dt param nt 0
    { callerX0 := X0, X := X0, hist := List.replicate nt none,
      tseq := (List.range nt).map fun n : ℕ => dt * (n : ℚ) }

/-- Loop of the class drivers' `__call__` translated statement-by-statement
over the store, analogous to `GCMloopStore`. -/
def gcmClassLoopStore {P : Type} (rhs : List ℚ → P → List ℚ) (dt : ℚ)
    (p : P) : ℕ → ℕ → GCMStore → GCMStore
  | 0, _, s => s
  | m + 1, n, s =>
    let X' := RK4 rhs dt s.X p
    gcmClassLoopStore rhs dt p m (n + 1)
      { s with X := X', hist := s.hist.set (n + 1) (some X'),
               tseq := s.tseq.set (n + 1) (dt * ((n : ℚ) + 1)) }

/-- Call of a class driver's `__call__` over the store: `X = X0.copy()`
copies the caller's array, and `hist[0] = X` writes its value into row 0 of
`hist`. -/
def gcmClassCallStore {P : Type} (rhs : List ℚ → P → List ℚ) (X0 : List ℚ)
    (dt : ℚ) (nt : ℕ) (p : P) : GCMStore :=
  gcmClassLoopStore rhs dt p nt 0
    { callerX0 := X0, X := X0,
      hist := (List.replicate (nt + 1) (none : Option (List ℚ))).set 0 (some X0),
      tseq := (List.range (nt + 1)).map fun n : ℕ => dt * (n : ℚ) }

/-- Both components returned by `GCMloop` keep the lengths of the buffers it
was given: the loop only overwrites entries in place. -/
theorem GCMloop_length (F dt : ℚ) (param : List ℚ) (m : ℕ) :
    ∀ n X hist tseq,
      (GCMloop F dt param m n X hist tseq).1.length = hist.length ∧
      (GCMloop F dt param m n X hist tseq).2.length = tseq.length := by
  induction m with
  | zero => intro n X hist tseq; exact ⟨rfl, rfl⟩
  | succ m ih =>
    intro n X hist tseq
    simp only [GCMloop]
    split
    · exact ⟨rfl, rfl⟩
    · have h := ih (n + 1) (gcmStep F dt param X)
        (hist.set n (some (gcmStep F dt param X)))
        (tseq.set n (dt * ((n : ℚ) + 1)))
      simpa [List.length_set] using h

/-- Both components returned by `gcmClassLoop` keep the lengths of the
buffers it was given. -/
theorem gcmClassLoop_length {P : Type} (rhs : List ℚ → P → List ℚ) (dt : ℚ)
    (p : P) (m : ℕ) :
    ∀ n X hist tseq,
      (gcmClassLoop rhs dt p m n X hist tseq).1.length = hist.length ∧
      (gcmClassLoop rhs dt p m n X hist tseq).2.length = tseq.length := by
  induction m with
  | zero => intro n X hist tseq; exact ⟨rfl, rfl⟩
  | succ m ih =>
    intro n X hist tseq
    simp only [gcmClassLoop]
    have h := ih (n + 1) (RK4 rhs dt X p)
      (hist.set (n + 1) (some (RK4 rhs dt X p)))
      (tseq.set (n + 1) (dt * ((n : ℚ) + 1)))
    simpa [List.length_set] using h

/-- Characterization of `GCMloop`: there is a number `t` of completed
iterations, at most the remaining count `m`; every state produced by the
first `t` Euler updates passes the divergence guard; if the loop stopped
short the next state trips it; entries `n, ..., n+t-1` of the history hold
the successive Euler iterates and the matching times `dt*(j+1)`, and every
other entry is untouched. -/
theorem GCMloop_get (F dt : ℚ) (param : List ℚ) (m : ℕ) :
    ∀ n X hist tseq, n + m ≤ hist.length → n + m ≤ tseq.length →
    ∃ t, t ≤ m ∧
      (∀ i, i < t → maxAbs ((gcmStep F dt param)^[i + 1] X) ≤ 1000) ∧
      (t < m → 1000 < maxAbs ((gcmStep F dt param)^[t + 1] X)) ∧
      (∀ j, (GCMloop F dt param m n X hist tseq).1[j]? =
        if n ≤ j ∧ j < n + t then
          some (some ((gcmStep F dt param)^[j - n + 1] X))
        else hist[j]?) ∧
      (∀ j, (GCMloop F dt param m n X hist tseq).2[j]? =
        if n ≤ j ∧ j < n + t then some (dt * ((j : ℚ) + 1)) else tseq[j]?) := by
  induction m with
  | zero =>
    intro n X hist tseq _ _
    refine ⟨0, le_rfl, ?_, ?_, ?_, ?_⟩
    · intro i hi; exact absurd hi (Nat.not_lt_zero i)
    · intro hlt; exact absurd hlt (Nat.not_lt_zero 0)
    · intro j
      have hc : ¬(n ≤ j ∧ j < n + 0) := by omega
      simp only [GCMloop]
      rw [if_neg hc]
    · intro j
      have hc : ¬(n ≤ j ∧ j < n + 0) := by omega
      simp only [GCMloop]
      rw [if_neg hc]
  | succ m ih =>
    intro n X hist tseq hh ht
    by_cases h1 : 1000 < maxAbs (gcmStep F dt param X)
    · refine ⟨0, Nat.zero_le _, ?_, ?_, ?_, ?_⟩
      · intro i hi; exact absurd hi (Nat.not_lt_zero i)
      · intro _; simpa using h1
      · intro j
        have hc : ¬(n ≤ j ∧ j < n + 0) := by omega
        have hunf : GCMloop F dt param (m + 1) n X hist tseq = (hist, tseq) := by
          simp [GCMloop, h1]
        rw [hunf, if_neg hc]
      · intro j
        have hc : ¬(n ≤ j ∧ j < n + 0) := by omega
        have hunf : GCMloop F dt param (m + 1) n X hist tseq = (hist, tseq) := by
          simp [GCMloop, h1]
        rw [hunf, if_neg hc]
    · obtain ⟨t', ht'le, hbound, hover, hhist, htseq⟩ :=
        ih (n + 1) (gcmStep F dt param X)
          (hist.set n (some (gcmStep F dt param X)))
          (tseq.set n (dt * ((n : ℚ) + 1)))
          (by rw [List.length_set]; omega) (by rw [List.length_set]; omega)
      have hunf : GCMloop F dt param (m + 1) n X hist tseq =
          GCMloop F dt param m (n + 1) (gcmStep F dt param X)
            (hist.set n (some (gcmStep F dt param X)))
            (tseq.set n (dt * ((n : ℚ) + 1))) := by
        simp [GCMloop, h1]
      refine ⟨t' + 1, by omega, ?_, ?_, ?_, ?_⟩
      · intro i hi
        cases i with
        | zero => simpa using le_of_not_lt h1
        | succ i' =>
          have hb := hbound i' (by omega)
          rw [Function.iterate_succ_apply]
          exact hb
      · intro hlt
        have ho := hover (by omega)
        rw [Function.iterate_succ_apply]
        exact ho
      · intro j
        rw [hunf, hhist j]
        by_cases hj1 : j < n
        · have c1 : ¬(n + 1 ≤ j ∧ j < n + 1 + t') := by omega
          have c2 : ¬(n ≤ j ∧ j < n + (t' + 1)) := by omega
          simp only [if_neg c1, if_neg c2]
          exact List.getElem?_set_ne (by omega)
        by_cases hj2 : j = n
        · subst hj2
          have c1 : ¬(j + 1 ≤ j ∧ j < j + 1 + t') := by omega
          have c2 : j ≤ j ∧ j < j + (t' + 1) := by omega
          simp only [if_neg c1, if_pos c2]
          rw [List.getElem?_set_eq_of_lt _ (by omega)]
          simp
        by_cases hj3 : j < n + 1 + t'
        · have c1 : n + 1 ≤ j ∧ j < n + 1 + t' := by omega
          have c2 : n ≤ j ∧ j < n + (t' + 1) := by omega
          simp only [if_pos c1, if_pos c2]
          have e : j - n + 1 = j - (n + 1) + 1 + 1 := by omega
          rw [e]
          simp only [Function.iterate_succ_apply]
        · have c1 : ¬(n + 1 ≤ j ∧ j < n + 1 + t') := by omega
          have c2 : ¬(n ≤ j ∧ j < n + (t' + 1)) := by omega
          simp only [if_neg c1, if_neg c2]
          exact List.getElem?_set_ne (by omega)
      · intro j
        rw [hunf, htseq j]
        by_cases hj1 : j < n
        · have c1 : ¬(n + 1 ≤ j ∧ j < n + 1 + t') := by omega
          have c2 : ¬(n ≤ j ∧ j < n + (t' + 1)) := by omega
          simp only [if_neg c1, if_neg c2]
          exact List.getElem?_set_ne (by omega)
        by_cases hj2 : j = n
        · subst hj2
          have c1 : ¬(j + 1 ≤ j ∧ j < j + 1 + t') := by omega
          have c2 : j ≤ j ∧ j < j + (t' + 1) := by omega
          simp only [if_neg c1, if_pos c2]
          rw [List.getElem?_set_eq_of_lt _ (by omega)]
        by_cases hj3 : j < n + 1 + t'
        · have c1 : n + 1 ≤ j ∧ j < n + 1 + t' := by omega
          have c2 : n ≤ j ∧ j < n + (t' + 1) := by omega
          simp only [if_pos c1, if_pos c2]
        · have c1 : ¬(n + 1 ≤ j ∧ j < n + 1 + t') := by omega
          have c2 : ¬(n ≤ j ∧ j < n + (t' + 1)) := by omega
          simp only [if_neg c1, if_neg c2]
          exact List.getElem?_set_ne (by omega)

/-- Characterization of a `GCM` run: some number `t ≤ nt` of history rows
are filled with the successive Euler iterates of `gcmStep` (all of which
pass the divergence guard), every later row still holds the NaN unset
marker, and the time entries are `dt*(j+1)` where overwritten and keep
their `dt*j` initialization where not. -/
theorem GCM_spec (X0 : List ℚ) (F dt : ℚ) (nt : ℕ) (param : List ℚ) :
    ∃ t, t ≤ nt ∧
      (∀ i, i < t → maxAbs ((gcmStep F dt param)^[i + 1] X0) ≤ 1000) ∧
      (t < nt → 1000 < maxAbs ((gcmStep F dt param)^[t + 1] X0)) ∧
      (∀ j, (GCM X0 F dt nt param).1[j]? =
        if j < t then some (some ((gcmStep F dt param)^[j + 1] X0))
        else if j < nt then some none else none) ∧
      (∀ j, (GCM X0 F dt nt param).2[j]? =
        if j < t then some (dt * ((j : ℚ) + 1))
        else if j < nt then some (dt * (j : ℚ)) else none) := by
  obtain ⟨t, htle, hbound, hover, hhist, htseq⟩ :=
    GCMloop_get F dt param nt 0 X0 (List.replicate nt none)
      ((List.range nt).map fun n : ℕ => dt * (n : ℚ))
      (by rw [List.length_replicate]; omega)
      (by rw [List.length_map, List.length_range]; omega)
  refine ⟨t, htle, hbound, hover, ?_, ?_⟩
  · intro j
    have h := hhist j
    simp only [GCM]
    rw [h]
    by_cases hjt : j < t
    · have hc : 0 ≤ j ∧ j < 0 + t := by omega
      rw [if_pos hc, if_pos hjt]
      simp
    · have hc : ¬(0 ≤ j ∧ j < 0 + t) := by omega
      rw [if_neg hc, if_neg hjt, List.getElem?_replicate]
  · intro j
    have h := htseq j
    simp only [GCM]
    rw [h]
    by_cases hjt : j < t
    · have hc : 0 ≤ j ∧ j < 0 + t := by omega
      rw [if_pos hc, if_pos hjt]
    · have hc : ¬(0 ≤ j ∧ j < 0 + t) := by omega
      rw [if_neg hc, if_neg hjt]
      by_cases hjn : j < nt
      · rw [if_pos hjn, List.getElem?_map, List.getElem?_range hjn]
        rfl
      · rw [if_neg hjn, List.getElem?_map,
          List.getElem?_eq_none (by rw [List.length_range]; omega)]
        rfl

/-- Characterization of `gcmClassLoop`: it runs all `m` iterations
unconditionally, filling entries `n+1, ..., n+m` of the history with the
successive RK4 iterates (entry `j` holding the `(j-n)`-th iterate) and the
matching times `dt*j`, and leaving every other entry untouched. -/
theorem gcmClassLoop_get {P : Type} (rhs : List ℚ → P → List ℚ) (dt : ℚ)
    (p : P) (m : ℕ) :
    ∀ n X hist tseq, n + 1 + m ≤ hist.length → n + 1 + m ≤ tseq.length →
      (∀ j, (gcmClassLoop rhs dt p m n X hist tseq).1[j]? =
        if n + 1 ≤ j ∧ j < n + 1 + m then
          some (some ((fun Y => RK4 rhs dt Y p)^[j - n] X))
        else hist[j]?) ∧
      (∀ j, (gcmClassLoop rhs dt p m n X hist tseq).2[j]? =
        if n + 1 ≤ j ∧ j < n + 1 + m then some (dt * (j : ℚ)) else tseq[j]?) := by
  induction m with
  | zero =>
    intro n X hist tseq _ _
    constructor
    · intro j
      have hc : ¬(n + 1 ≤ j ∧ j < n + 1 + 0) := by omega
      simp only [gcmClassLoop]
      rw [if_neg hc]
    · intro j
      have hc : ¬(n + 1 ≤ j ∧ j < n + 1 + 0) := by omega
      simp only [gcmClassLoop]
      rw [if_neg hc]
  | succ m ih =>
    intro n X hist tseq hh ht
    obtain ⟨hhist, htseq⟩ := ih (n + 1) (RK4 rhs dt X p)
      (hist.set (n + 1) (some (RK4 rhs dt X p)))
      (tseq.set (n + 1) (dt * ((n : ℚ) + 1)))
      (by rw [List.length_set]; omega) (by rw [List.length_set]; omega)
    have hunf : gcmClassLoop rhs dt p (m + 1) n X hist tseq =
        gcmClassLoop rhs dt p m (n + 1) (RK4 rhs dt X p)
          (hist.set (n + 1) (some (RK4 rhs dt X p)))
          (tseq.set (n + 1) (dt * ((n : ℚ) + 1))) := by
      simp [gcmClassLoop]
    constructor
    · intro j
      rw [hunf, hhist j]
      by_cases hj1 : j < n + 1
      · have c1 : ¬(n + 1 + 1 ≤ j ∧ j < n + 1 + 1 + m) := by omega
        have c2 : ¬(n + 1 ≤ j ∧ j < n + 1 + (m + 1)) := by omega
        simp only [if_neg c1, if_neg c2]
        exact List.getElem?_set_ne (by omega)
      by_cases hj2 : j = n + 1
      · subst hj2
        have c1 : ¬(n + 1 + 1 ≤ n + 1 ∧ n + 1 < n + 1 + 1 + m) := by omega
        have c2 : n + 1 ≤ n + 1 ∧ n + 1 < n + 1 + (m + 1) := by omega
        simp only [if_neg c1, if_pos c2]
        rw [List.getElem?_set_eq_of_lt _ (by omega)]
        have e : n + 1 - n = 1 := by omega
        rw [e]
        simp
      by_cases hj3 : j < n + 1 + 1 + m
      · have c1 : n + 1 + 1 ≤ j ∧ j < n + 1 + 1 + m := by omega
        have c2 : n + 1 ≤ j ∧ j < n + 1 + (m + 1) := by omega
        simp only [if_pos c1, if_pos c2]
        have e : j - n = j - (n + 1) + 1 := by omega
        rw [e]
        simp only [Function.iterate_succ_apply]
      · have c1 : ¬(n + 1 + 1 ≤ j ∧ j < n + 1 + 1 + m) := by omega
        have c2 : ¬(n + 1 ≤ j ∧ j < n + 1 + (m + 1)) := by omega
        simp only [if_neg c1, if_neg c2]
        exact List.getElem?_set_ne (by omega)
    · intro j
      rw [hunf, htseq j]
      by_cases hj1 : j < n + 1
      · have c1 : ¬(n + 1 + 1 ≤ j ∧ j < n + 1 + 1 + m) := by omega
        have c2 : ¬(n + 1 ≤ j ∧ j < n + 1 + (m + 1)) := by omega
        simp only [if_neg c1, if_neg c2]
        exact List.getElem?_set_ne (by omega)
      by_cases hj2 : j = n + 1
      · subst hj2
        have c1 : ¬(n + 1 + 1 ≤ n + 1 ∧ n + 1 < n + 1 + 1 + m) := by omega
        have c2 : n + 1 ≤ n + 1 ∧ n + 1 < n + 1 + (m + 1) := by omega
        simp only [if_neg c1, if_pos c2]
        rw [List.getElem?_set_eq_of_lt _ (by omega)]
        congr 1
        push_cast
        ring
      by_cases hj3 : j < n + 1 + 1 + m
      · have c1 : n + 1 + 1 ≤ j ∧ j < n + 1 + 1 + m := by omega
        have c2 : n + 1 ≤ j ∧ j < n + 1 + (m + 1) := by omega
        simp only [if_pos c1, if_pos c2]
      · have c1 : ¬(n + 1 + 1 ≤ j ∧ j < n + 1 + 1 + m) := by omega
        have c2 : ¬(n + 1 ≤ j ∧ j < n + 1 + (m + 1)) := by omega
        simp only [if_neg c1, if_neg c2]
        exact List.getElem?_set_ne (by omega)

/-- Characterization of a class-driver run: every history row `j ≤ nt` is
filled, holding the `j`-th RK4 iterate of the initial condition (row 0
holding `X0` itself), and every time entry `j ≤ nt` equals `dt*j`. -/
theorem gcmClassDriver_get {P : Type} (rhs : List ℚ → P → List ℚ)
    (X0 : List ℚ) (dt : ℚ) (nt : ℕ) (p : P) (j : ℕ) (hj : j ≤ nt) :
    (gcmClassDriver rhs X0 dt nt p).1[j]? =
      some (some ((fun Y => RK4 rhs dt Y p)^[j] X0)) ∧
    (gcmClassDriver rhs X0 dt nt p).2[j]? = some (dt * (j : ℚ)) := by
  obtain ⟨hhist, htseq⟩ :=
    gcmClassLoop_get rhs dt p nt 0 X0
      ((List.replicate (nt + 1) (none : Option (List ℚ))).set 0 (some X0))
      ((List.range (nt + 1)).map fun n : ℕ => dt * (n : ℚ))
      (by rw [List.length_set, List.length_replicate]; omega)
      (by rw [List.length_map, List.length_range]; omega)
  constructor
  · have h := hhist j
    simp only [gcmClassDriver]
    rw [h]
    by_cases hj0 : j = 0
    · subst hj0
      have hc : ¬(0 + 1 ≤ 0 ∧ 0 < 0 + 1 + nt) := by omega
      rw [if_neg hc,
        List.getElem?_set_eq_of_lt _ (by rw [List.length_replicate]; omega)]
      simp
    · have hc : 0 + 1 ≤ j ∧ j < 0 + 1 + nt := by omega
      rw [if_pos hc]
      simp
  · have h := htseq j
    simp only [gcmClassDriver]
    rw [h]
    by_cases hj0 : j = 0
    · subst hj0
      have hc : ¬(0 + 1 ≤ 0 ∧ 0 < 0 + 1 + nt) := by omega
      rw [if_neg hc, List.getElem?_map, List.getElem?_range (Nat.succ_pos nt)]
      rfl
    · have hc : 0 + 1 ≤ j ∧ j < 0 + 1 + nt := by omega
      rw [if_pos hc]

/-- History and time lengths of a `GCM` run are both `nt`: the buffers are
allocated with `nt` rows and only overwritten in place. -/
theorem GCM_length (X0 : List ℚ) (F dt : ℚ) (nt : ℕ) (param : List ℚ) :
    (GCM X0 F dt nt param).1.length = nt ∧
    (GCM X0 F dt nt param).2.length = nt := by
  have h := GCMloop_length F dt param nt 0 X0 (List.replicate nt none)
    ((List.range nt).map fun n : ℕ => dt * (n : ℚ))
  simpa [GCM] using h

/-- History and time lengths of a class-driver run are both `nt + 1`. -/
theorem gcmClassDriver_length {P : Type} (rhs : List ℚ → P → List ℚ)
    (X0 : List ℚ) (dt : ℚ) (nt : ℕ) (p : P) :
    (gcmClassDriver rhs X0 dt nt p).1.length = nt + 1 ∧
    (gcmClassDriver rhs X0 dt nt p).2.length = nt + 1 := by
  have h := gcmClassLoop_length rhs dt p nt 0 X0
    ((List.replicate (nt + 1) (none : Option (List ℚ))).set 0 (some X0))
    ((List.range (nt + 1)).map fun n : ℕ => dt * (n : ℚ))
  simpa [gcmClassDriver] using h

/-- The store-threaded `GCM` loop never writes the caller's array. -/
theorem GCMloopStore_callerX0 (F dt : ℚ) (param : List ℚ) (m : ℕ) :
    ∀ n s, (GCMloopStore F dt param m n s).callerX0 = s.callerX0 := by
  induction m with
  | zero => intro n s; rfl
  | succ m ih =>
    intro n s
    simp only [GCMloopStore]
    split
    · rfl
    · exact ih (n + 1) _

/-- The store-threaded class loop never writes the caller's array. -/
theorem gcmClassLoopStore_callerX0 {P : Type} (rhs : List ℚ → P → List ℚ)
    (dt : ℚ) (p : P) (m : ℕ) :
    ∀ n s, (gcmClassLoopStore rhs dt p m n s).callerX0 = s.callerX0 := by
  induction m with
  | zero => intro n s; rfl
  | succ m ih =>
    intro n s
    simp only [gcmClassLoopStore]
    exact ih (n + 1) _

/-- The store-threaded `GCM` loop computes the same history and time
buffers as the pure loop. -/
theorem GCMloopStore_agrees (F dt : ℚ) (param : List ℚ) (m : ℕ) :
    ∀ n s, ((GCMloopStore F dt param m n s).hist,
        (GCMloopStore F dt param m n s).tseq) =
      GCMloop F dt param m n s.X s.hist s.tseq := by
  induction m with
  | zero => intro n s; rfl
  | succ m ih =>
    intro n s
    simp only [GCMloopStore, GCMloop]
    split
    · rfl
    · exact ih (n + 1) _

/-- The store-threaded class loop computes the same history and time
buffers as the pure loop. -/
theorem gcmClassLoopStore_agrees {P : Type} (rhs : List ℚ → P → List ℚ)
    (dt : ℚ) (p : P) (m : ℕ) :
    ∀ n s, ((gcmClassLoopStore rhs dt p m n s).hist,
        (gcmClassLoopStore rhs dt p m n s).tseq) =
      gcmClassLoop rhs dt p m n s.X s.hist s.tseq := by
  induction m with
  | zero => intro n s; rfl
  | succ m ih =>
    intro n s
    simp only [gcmClassLoopStore, gcmClassLoop]
    exact ih (n + 1) _

/-- Evaluating the default closure coefficient list `[0]` gives 0 at every
scalar: `np.polyval([0], x) = 0`. -/
theorem polyval_default_zero (x : ℚ) : polyval [0] x = 0 := by
  simp [polyval]

/-- The slow tendency has the same length as the state vector. -/
theorem L96_eq1_xdot_length (X : List ℚ) (F : ℚ) :
    (L96_eq1_xdot X F).length = X.length := by
  simp only [L96_eq1_xdot, List.length_map, List.length_range]

/-- Componentwise subtraction of an all-zero vector of matching shape is
the identity. -/
theorem vsub_map_zero : ∀ (A C : List ℚ), A.length = C.length →
    vsub A (C.map fun _ => (0 : ℚ)) = A := by
  intro A
  induction A with
  | nil => intro C _; rfl
  | cons a A ih =>
    intro C h
    cases C with
    | nil => simp at h
    | cons c C =>
      have h' : A.length = C.length := by simpa using h
      simp only [List.map_cons, vsub, List.zipWith_cons_cons, sub_zero]
      have := ih C h'
      simp only [vsub] at this
      rw [this]

/-- A step of `RK4` does not depend on the auxiliary parameter when the
tendency function ignores it. -/
theorem RK4_param_irrel {P : Type} (rhs : List ℚ → P → List ℚ)
    (hrhs : ∀ X p q, rhs X p = rhs X q) (dt : ℚ) (p q : P) (X : List ℚ) :
    RK4 rhs dt X p = RK4 rhs dt X q := by
  simp only [RK4]
  rw [hrhs X p q]
  rw [hrhs _ p q, hrhs _ p q, hrhs _ p q]

/-- The class loop does not depend on the auxiliary parameter when the
tendency function ignores it. -/
theorem gcmClassLoop_param_irrel {P : Type} (rhs : List ℚ → P → List ℚ)
    (hrhs : ∀ X p q, rhs X p = rhs X q) (dt : ℚ) (p q : P) (m : ℕ) :
    ∀ n X hist tseq, gcmClassLoop rhs dt p m n X hist tseq =
      gcmClassLoop rhs dt q m n X hist tseq := by
  induction m with
  | zero => intro n X hist tseq; rfl
  | succ m ih =>
    intro n X hist tseq
    simp only [gcmClassLoop]
    rw [RK4_param_irrel rhs hrhs dt p q X]
    exact ih (n + 1) _ _ _

/-- Claim C1 counterexample: running the `GCM` function of
gcm-analogue.ipynb with `X0 = [1]`, `F = 0`, `dt = 1`, `nt = 2` returns a
history of 2 rows, not `nt + 1 = 3` rows, and its first row holds the
state after the first Euler step (`[0]`), not the initial condition
`[1]`. -/
theorem claim_C1_counterexample :
    (GCM [1] 0 1 2 [0]).1 = [some [0], some [0]] ∧
    (GCM [1] 0 1 2 [0]).1.length ≠ 2 + 1 ∧
    (GCM [1] 0 1 2 [0]).1[0]? ≠ some (some [1]) := by
  have h : (GCM [1] 0 1 2 [0]).1 = [some [0], some [0]] := by
    norm_num [GCM, GCMloop, gcmStep, vadd, vsub, smulV, L96_eq1_xdot,
      cyclicGet, polyvalVec, polyval, maxAbs, List.range_succ,
      List.replicate_succ, List.set]
  refine ⟨h, ?_, ?_⟩ <;> rw [h] <;> norm_num

/-- Claim C1 (amended): the `__call__` methods of
`GCM_without_parameterization` and `GCM_network` return a state history
with exactly `nt + 1` rows whose first row equals the initial condition
`X0`; the `GCM` function of gcm-analogue.ipynb instead returns exactly `nt`
rows and does not store the initial condition (its first row holds the
state after the first Euler step, or the unset marker on immediate
divergence). -/
theorem claim_C1_amended {P : Type} (F : ℚ) (network : List ℚ → List ℚ)
    (X0 : List ℚ) (dt : ℚ) (nt : ℕ) (param : List ℚ) (p : P) :
    (GCM_without_parameterization F X0 dt nt p).1.length = nt + 1 ∧
    (GCM_without_parameterization F X0 dt nt p).1[0]? = some (some X0) ∧
    (GCM_network F network X0 dt nt p).1.length = nt + 1 ∧
    (GCM_network F network X0 dt nt p).1[0]? = some (some X0) ∧
    (GCM X0 F dt nt param).1.length = nt := by
  refine ⟨(gcmClassDriver_length (GCM_wp_rhs F) X0 dt nt p).1, ?_,
    (gcmClassDriver_length (GCM_network_rhs F network) X0 dt nt p).1, ?_,
    (GCM_length X0 F dt nt param).1⟩
  · have h := (gcmClassDriver_get (GCM_wp_rhs F) X0 dt nt p 0 (Nat.zero_le nt)).1
    simpa [GCM_without_parameterization] using h
  · have h :=
      (gcmClassDriver_get (GCM_network_rhs F network) X0 dt nt p 0 (Nat.zero_le nt)).1
    simpa [GCM_network] using h

/-- Claim C2 counterexample: `GCM_without_parameterization.__call__`
evaluates no divergence guard: in the run with `X0 = [2000]`, `dt = 0`,
`nt = 1`, the state reached after the first step has maximum absolute
value 2000 > 1e3, yet the run does not terminate early and the history
entry following that step is a filled value, not the unset marker. -/
theorem claim_C2_counterexample :
    (1000 : ℚ) < maxAbs [2000] ∧
    (GCM_without_parameterization (P := List ℚ) 0 [2000] 0 1 [0]).1 =
      [some [2000], some [2000]] ∧
    (GCM_without_parameterization (P := List ℚ) 0 [2000] 0 1 [0]).1[1]? ≠
      some none := by
  have h : (GCM_without_parameterization (P := List ℚ) 0 [2000] 0 1 [0]).1 =
      [some [2000], some [2000]] := by
    norm_num [GCM_without_parameterization, gcmClassDriver, gcmClassLoop,
      RK4, GCM_wp_rhs, vadd, vsub, smulV, L96_eq1_xdot, cyclicGet,
      polyvalVec, polyval, maxAbs, List.range_succ, List.replicate_succ,
      List.set]
  refine ⟨by norm_num [maxAbs], h, ?_⟩
  rw [h]
  simp

/-- Claim C2 (amended): only the `GCM` function of gcm-analogue.ipynb
evaluates the divergence guard with threshold 1e3 after each step; when it
terminates a run early every remaining history entry retains the unset
marker (an unset entry is never followed by a filled one, and an unset
entry within range only occurs after some Euler iterate exceeded the
threshold).  The class drivers `GCM_without_parameterization` and
`GCM_network` have no guard: they run all `nt` steps and fill every
history row regardless of the state's magnitude. -/
theorem claim_C2_amended {P : Type} (X0 : List ℚ) (F dt : ℚ) (nt : ℕ)
    (param : List ℚ) (network : List ℚ → List ℚ) (p : P) :
    (∀ i j, i ≤ j → j < nt → (GCM X0 F dt nt param).1[i]? = some none →
      (GCM X0 F dt nt param).1[j]? = some none) ∧
    (∀ i, i < nt → (GCM X0 F dt nt param).1[i]? = some none →
      ∃ t, t ≤ i ∧ 1000 < maxAbs ((gcmStep F dt param)^[t + 1] X0)) ∧
    (∀ j, j ≤ nt →
      (∃ v, (GCM_without_parameterization F X0 dt nt p).1[j]? = some (some v)) ∧
      (∃ v, (GCM_network F network X0 dt nt p).1[j]? = some (some v))) := by
  obtain ⟨t, htle, hbound, hover, hhist, htseq⟩ := GCM_spec X0 F dt nt param
  refine ⟨?_, ?_, ?_⟩
  · intro i j hij hj hi
    have hit : ¬ i < t := by
      intro hlt
      have hhi := hhist i
      rw [if_pos hlt, hi] at hhi
      simp at hhi
    have hhj := hhist j
    rw [if_neg (by omega : ¬ j < t), if_pos hj] at hhj
    exact hhj
  · intro i hi hnone
    have hit : ¬ i < t := by
      intro hlt
      have hhi := hhist i
      rw [if_pos hlt, hnone] at hhi
      simp at hhi
    exact ⟨t, by omega, hover (by omega)⟩
  · intro j hj
    exact ⟨⟨_, (gcmClassDriver_get (GCM_wp_rhs F) X0 dt nt p j hj).1⟩,
      ⟨_, (gcmClassDriver_get (GCM_network_rhs F network) X0 dt nt p j hj).1⟩⟩

/-- Claim C2 witness: in the `GCM` run with `X0 = [0]`, `F = 1500`,
`dt = 1/2`, `nt = 4`, the guard trips at the second step, entry 1 of the
history is the unset marker, and by the amended claim entry 2 is unset as
well, while the class driver fills its entry 2 in the matching run. -/
theorem claim_C2_witness :
    (GCM [0] 1500 (1 / 2) 4 [0]).1[2]? = some none ∧
    (∃ v, (GCM_without_parameterization (P := List ℚ) 1500 [0] (1 / 2) 4
      [0]).1[2]? = some (some v)) := by
  have h := claim_C2_amended (P := List ℚ) [0] 1500 (1 / 2) 4 [0]
    (fun X => X) [0]
  have h1 : (GCM [0] 1500 (1 / 2) 4 [0]).1[1]? = some none := by
    norm_num [GCM, GCMloop, gcmStep, vadd, vsub, smulV, L96_eq1_xdot,
      cyclicGet, polyvalVec, polyval, maxAbs, List.range_succ,
      List.replicate_succ, List.set]
  exact ⟨h.1 1 2 (by omega) (by omega) h1, (h.2.2 2 (by omega)).1⟩

/-- Claim C3 counterexample: `GCM_network.rhs` ADDS the network output to
the slow tendency instead of subtracting it: with `F = 0`, a network
returning `[1]` and state `[0]` (where the slow tendency is `[0]`), the
rhs evaluates to `[1]`, while `L96_eq1_xdot(X, F) - P(X)` would be
`[-1]`. -/
theorem claim_C3_counterexample :
    GCM_network_rhs (P := List ℚ) 0 (fun _ => [1]) [0] [0] = [1] ∧
    vsub (L96_eq1_xdot [0] 0) [1] = [-1] ∧
    ([1] : List ℚ) ≠ [-1] := by
  refine ⟨?_, ?_, by norm_num⟩
  · norm_num [GCM_network_rhs, vadd, L96_eq1_xdot, cyclicGet, List.range_succ]
  · norm_num [vsub, L96_eq1_xdot, cyclicGet, List.range_succ]

/-- Claim C3 (amended): in `GCM` the polynomial closure enters with a minus
sign — every filled history row is an iterate of the Euler map
`X + dt*(L96_eq1_xdot(X, F) - polyval(param, X))` — while in `GCM_network`
the network output enters with a plus sign: every history row `j ≤ nt` is
the `j`-th RK4 iterate of the tendency
`X ↦ L96_eq1_xdot(X, F) + network(X)`. -/
theorem claim_C3_amended {P : Type} (X0 : List ℚ) (F dt : ℚ) (nt : ℕ)
    (param : List ℚ) (network : List ℚ → List ℚ) (p : P) :
    (∀ j v, (GCM X0 F dt nt param).1[j]? = some (some v) →
      v = (fun X => vadd X (smulV dt
        (vsub (L96_eq1_xdot X F) (polyvalVec param X))))^[j + 1] X0) ∧
    (∀ j, j ≤ nt → (GCM_network F network X0 dt nt p).1[j]? =
      some (some ((fun X => RK4
        (fun Y (_ : P) => vadd (L96_eq1_xdot Y F) (network Y))
          dt X p)^[j] X0))) := by
  obtain ⟨t, htle, hbound, hover, hhist, htseq⟩ := GCM_spec X0 F dt nt param
  constructor
  · intro j v hv
    have hj := hhist j
    by_cases hjt : j < t
    · rw [if_pos hjt, hv] at hj
      simp only [Option.some.injEq] at hj
      exact hj
    · rw [if_neg hjt, hv] at hj
      by_cases hjn : j < nt
      · rw [if_pos hjn] at hj; simp at hj
      · rw [if_neg hjn] at hj; simp at hj
  · intro j hj
    exact (gcmClassDriver_get (GCM_network_rhs F network) X0 dt nt p j hj).1

/-- Claim C3 witness: the amended claim applied to the concrete `GCM` run
with `X0 = [1]`, `F = 0`, `dt = 1`, `nt = 1`, whose single filled row is
`[0]`, the first iterate of the minus-sign Euler map. -/
theorem claim_C3_witness :
    ([0] : List ℚ) = (fun X => vadd X (smulV 1
      (vsub (L96_eq1_xdot X 0) (polyvalVec [0] X))))^[0 + 1] [1] := by
  apply (claim_C3_amended (P := List ℚ) [1] 0 1 1 [0] (fun X => X) [0]).1 0 [0]
  norm_num [GCM, GCMloop, gcmStep, vadd, vsub, smulV, L96_eq1_xdot,
    cyclicGet, polyvalVec, polyval, maxAbs, List.range_succ,
    List.replicate_succ, List.set]

/-- Claim C4 counterexample: no configuration validation exists: with the
invalid step size `dt = 0` both the `GCM` function and
`GCM_without_parameterization.__call__` run to completion and return a
fully formed state history instead of failing fast with no state. -/
theorem claim_C4_counterexample :
    ((0 : ℚ) ≤ 0) ∧
    (GCM [1] 0 0 1 [0]).1 = [some [1]] ∧
    (GCM_without_parameterization (P := List ℚ) 0 [1] 0 1 [0]).1 =
      [some [1], some [1]] := by
  refine ⟨le_rfl, ?_, ?_⟩
  · norm_num [GCM, GCMloop, gcmStep, vadd, vsub, smulV, L96_eq1_xdot,
      cyclicGet, polyvalVec, polyval, maxAbs, List.range_succ,
      List.replicate_succ, List.set]
  · norm_num [GCM_without_parameterization, gcmClassDriver, gcmClassLoop,
      RK4, GCM_wp_rhs, vadd, vsub, smulV, L96_eq1_xdot, cyclicGet,
      polyvalVec, polyval, maxAbs, List.range_succ, List.replicate_succ,
      List.set]

/-- Claim C4 (amended): invalid configurations are not detected: even for a
non-positive step size the drivers proceed with integration, `GCM`
returning its usual `nt`-row buffers and the class driver returning a
history with every row filled. -/
theorem claim_C4_amended {P : Type} (F : ℚ) (X0 : List ℚ) (dt : ℚ) (nt : ℕ)
    (param : List ℚ) (p : P) (_hdt : dt ≤ 0) :
    (GCM X0 F dt nt param).1.length = nt ∧
    (GCM X0 F dt nt param).2.length = nt ∧
    ∀ j, j ≤ nt → ∃ v,
      (GCM_without_parameterization F X0 dt nt p).1[j]? = some (some v) := by
  refine ⟨(GCM_length X0 F dt nt param).1, (GCM_length X0 F dt nt param).2, ?_⟩
  intro j hj
  exact ⟨_, (gcmClassDriver_get (GCM_wp_rhs F) X0 dt nt p j hj).1⟩

/-- Claim C4 witness: the amended claim at the concrete invalid
configuration `dt = 0`. -/
theorem claim_C4_witness :
    (GCM [1] 0 0 1 [0]).1.length = 1 ∧
    (∃ v, (GCM_without_parameterization (P := List ℚ) 0 [1] 0 1
      [0]).1[1]? = some (some v)) := by
  have h := claim_C4_amended (P := List ℚ) 0 [1] 0 1 [0] [0] le_rfl
  exact ⟨h.1, h.2.2 1 le_rfl⟩

/-- Claim C5: the default closure coefficient list `[0]` evaluates to the
zero correction at every state, so the tendency used by `GCM` with the
default `param=[0]` equals the uncoupled slow tendency exactly, every step
is the plain Euler update `X + dt * L96_eq1_xdot(X, F)`, and every filled
history row is an iterate of that plain Euler map. -/
theorem claim_C5_thm (X0 : List ℚ) (F dt : ℚ) (nt : ℕ) :
    (∀ X : List ℚ, polyvalVec [0] X = X.map fun _ => 0) ∧
    (∀ X : List ℚ, gcmStep F dt [0] X =
      List.zipWith (fun x d => x + dt * d) X (L96_eq1_xdot X F)) ∧
    (∀ j v, (GCM X0 F dt nt [0]).1[j]? = some (some v) →
      v = (fun X => List.zipWith (fun x d => x + dt * d) X
        (L96_eq1_xdot X F))^[j + 1] X0) := by
  have hpoly : ∀ X : List ℚ, polyvalVec [0] X = X.map fun _ => (0 : ℚ) := by
    intro X
    simp only [polyvalVec]
    rw [show polyval [0] = fun _ : ℚ => (0 : ℚ) from funext polyval_default_zero]
  have hstep : ∀ X : List ℚ, gcmStep F dt [0] X =
      List.zipWith (fun x d => x + dt * d) X (L96_eq1_xdot X F) := by
    intro X
    simp only [gcmStep]
    rw [hpoly X, vsub_map_zero _ _ (L96_eq1_xdot_length X F)]
    simp only [vadd, smulV, List.zipWith_map_right]
  refine ⟨hpoly, hstep, ?_⟩
  intro j v hv
  obtain ⟨t, htle, hbound, hover, hhist, htseq⟩ := GCM_spec X0 F dt nt [0]
  have hfun : gcmStep F dt [0] =
      fun X => List.zipWith (fun x d => x + dt * d) X (L96_eq1_xdot X F) :=
    funext hstep
  have hj := hhist j
  by_cases hjt : j < t
  · rw [if_pos hjt, hv] at hj
    simp only [Option.some.injEq] at hj
    rw [hj, hfun]
  · rw [if_neg hjt, hv] at hj
    by_cases hjn : j < nt
    · rw [if_pos hjn] at hj; simp at hj
    · rw [if_neg hjn] at hj; simp at hj

/-- Claim C5 witness: the claim applied to the run `GCM [1] 0 1 1 [0]`,
whose single filled row `[0]` is the first iterate of the plain Euler
map. -/
theorem claim_C5_witness :
    ([0] : List ℚ) = (fun X => List.zipWith (fun x d => x + (1 : ℚ) * d) X
      (L96_eq1_xdot X 0))^[0 + 1] [1] := by
  apply (claim_C5_thm [1] 0 1 1).2.2 0 [0]
  norm_num [GCM, GCMloop, gcmStep, vadd, vsub, smulV, L96_eq1_xdot,
    cyclicGet, polyvalVec, polyval, maxAbs, List.range_succ,
    List.replicate_succ, List.set]

/-- Claim C6 counterexample: the run `GCM [0] 1500 (1/2) 4 [0]` trips the
divergence guard at its second step and returns the time sequence
`[1/2, 1/2, 1, 3/2]`: its first two consecutive entries differ by 0, not
by `dt = 1/2`, so fixed step spacing fails for early-terminated runs. -/
theorem claim_C6_counterexample :
    (GCM [0] 1500 (1 / 2) 4 [0]).2 = [1 / 2, 1 / 2, 1, 3 / 2] ∧
    ¬((1 : ℚ) / 2 - 1 / 2 = 1 / 2) := by
  constructor
  · norm_num [GCM, GCMloop, gcmStep, vadd, vsub, smulV, L96_eq1_xdot,
      cyclicGet, polyvalVec, polyval, maxAbs, List.range_succ,
      List.replicate_succ, List.set]
  · norm_num

/-- Claim C6 (amended): the class drivers always return the time sequence
`dt*j` with fixed spacing `dt` and states aligned with their times; the
`GCM` function does so (with times `dt*(j+1)` aligned to the stored
states) for runs that never trip the divergence guard, while an
early-terminated run keeps the `dt*j` initialization in the entries at and
past the truncation point, duplicating one time value. -/
theorem claim_C6_amended {P : Type} (F : ℚ) (X0 : List ℚ) (dt : ℚ) (nt : ℕ)
    (param : List ℚ) (network : List ℚ → List ℚ) (p : P) :
    (∀ j, j < nt →
      (GCM_without_parameterization F X0 dt nt p).2[j + 1]? =
        some (dt * ((j : ℚ) + 1)) ∧
      (GCM_without_parameterization F X0 dt nt p).2[j]? = some (dt * (j : ℚ)) ∧
      dt * ((j : ℚ) + 1) - dt * (j : ℚ) = dt) ∧
    (∀ j, j < nt →
      (GCM_network F network X0 dt nt p).2[j + 1]? =
        some (dt * ((j : ℚ) + 1)) ∧
      (GCM_network F network X0 dt nt p).2[j]? = some (dt * (j : ℚ))) ∧
    ((∀ i, i < nt → maxAbs ((gcmStep F dt param)^[i + 1] X0) ≤ 1000) →
      ∀ j, j < nt →
        (GCM X0 F dt nt param).2[j]? = some (dt * ((j : ℚ) + 1)) ∧
        (GCM X0 F dt nt param).1[j]? =
          some (some ((gcmStep F dt param)^[j + 1] X0))) := by
  refine ⟨?_, ?_, ?_⟩
  · intro j hj
    have h1 := (gcmClassDriver_get (GCM_wp_rhs F) X0 dt nt p (j + 1) (by omega)).2
    have h0 := (gcmClassDriver_get (GCM_wp_rhs F) X0 dt nt p j (by omega)).2
    refine ⟨?_, h0, by ring⟩
    show (gcmClassDriver (GCM_wp_rhs F) X0 dt nt p).2[j + 1]? =
      some (dt * ((j : ℚ) + 1))
    rw [h1]
    congr 1
    push_cast
    ring
  · intro j hj
    have h1 :=
      (gcmClassDriver_get (GCM_network_rhs F network) X0 dt nt p (j + 1) (by omega)).2
    have h0 :=
      (gcmClassDriver_get (GCM_network_rhs F network) X0 dt nt p j (by omega)).2
    refine ⟨?_, h0⟩
    show (gcmClassDriver (GCM_network_rhs F network) X0 dt nt p).2[j + 1]? =
      some (dt * ((j : ℚ) + 1))
    rw [h1]
    congr 1
    push_cast
    ring
  · intro hno j hj
    obtain ⟨t, htle, hbound, hover, hhist, htseq⟩ := GCM_spec X0 F dt nt param
    have htnt : t = nt := by
      by_contra hne
      have hlt : t < nt := by omega
      exact absurd (hno t hlt) (not_le.mpr (hover hlt))
    have hjt : j < t := by omega
    constructor
    · rw [htseq j, if_pos hjt]
    · rw [hhist j, if_pos hjt]

/-- Claim C6 witness: the amended claim at the run `GCM [0] 0 1 2 [0]`,
which never trips the guard (the state stays `[0]`), and the matching
class-driver run. -/
theorem claim_C6_witness :
    ((GCM_without_parameterization (P := List ℚ) 0 [0] 1 2 [0]).2[1]? =
      some (1 * ((0 : ℚ) + 1)) ∧
     (GCM_without_parameterization (P := List ℚ) 0 [0] 1 2 [0]).2[0]? =
      some (1 * ((0 : ℚ)))) ∧
    (GCM [0] 0 1 2 [0]).2[0]? = some (1 * ((0 : ℚ) + 1)) ∧
    (GCM [0] 0 1 2 [0]).2[1]? = some (1 * ((1 : ℚ) + 1)) := by
  have h := claim_C6_amended (P := List ℚ) 0 [0] 1 2 [0] (fun X => X) [0]
  have hno : ∀ i, i < 2 → maxAbs ((gcmStep 0 1 [0])^[i + 1] [0]) ≤ 1000 := by
    intro i hi
    interval_cases i <;>
      norm_num [gcmStep, vadd, vsub, smulV, L96_eq1_xdot, cyclicGet,
        polyvalVec, polyval, maxAbs]
  have hc := h.1 0 (by omega)
  exact ⟨⟨hc.1, hc.2.1⟩, (h.2.2 hno 0 (by omega)).1, (h.2.2 hno 1 (by omega)).1⟩

/-- Claim C7: the drivers are deterministic pure computations: two runs
with componentwise equal inputs (initial state, forcing, step size, step
count, closure parameter, network) return equal (history, time) pairs; no
hidden mutable state enters a run. -/
theorem claim_C7_thm {P : Type} (X0 X0' : List ℚ) (F F' dt dt' : ℚ)
    (nt nt' : ℕ) (param param' : List ℚ)
    (network network' : List ℚ → List ℚ) (p p' : P)
    (h1 : X0 = X0') (h2 : F = F') (h3 : dt = dt') (h4 : nt = nt')
    (h5 : param = param') (h6 : network = network') (h7 : p = p') :
    GCM X0 F dt nt param = GCM X0' F' dt' nt' param' ∧
    GCM_without_parameterization F X0 dt nt p =
      GCM_without_parameterization F' X0' dt' nt' p' ∧
    GCM_network F network X0 dt nt p =
      GCM_network F' network' X0' dt' nt' p' := by
  subst h1; subst h2; subst h3; subst h4; subst h5; subst h6; subst h7
  exact ⟨rfl, rfl, rfl⟩

/-- Claim C7 witness: the claim at one concrete input. -/
theorem claim_C7_witness :
    GCM [1] 2 3 4 [5] = GCM [1] 2 3 4 [5] ∧
    GCM_without_parameterization (P := List ℚ) 2 [1] 3 4 [5] =
      GCM_without_parameterization (P := List ℚ) 2 [1] 3 4 [5] ∧
    GCM_network (P := List ℚ) 2 (fun X => X) [1] 3 4 [5] =
      GCM_network (P := List ℚ) 2 (fun X => X) [1] 3 4 [5] :=
  claim_C7_thm [1] [1] 2 2 3 3 4 4 [5] [5] (fun X => X) (fun X => X) [5] [5]
    rfl rfl rfl rfl rfl rfl rfl

/-- Claim C8: in the statement-by-statement store translation of the
drivers (where every mutating numpy statement updates the corresponding
array field, `X0.copy()` starts `X` as a separate array, and the rebinding
`X = X + dt*(...)` and `X = self.time_stepping(...)` allocate fresh
arrays), the caller's initial-condition array is unchanged when the call
returns, and the store translation returns exactly the same history and
time buffers as the pure drivers. -/
theorem claim_C8_thm {P : Type} (X0 : List ℚ) (F dt : ℚ) (nt : ℕ)
    (param : List ℚ) (rhs : List ℚ → P → List ℚ) (p : P) :
    (GCMcallStore X0 F dt nt param).callerX0 = X0 ∧
    (gcmClassCallStore rhs X0 dt nt p).callerX0 = X0 ∧
    ((GCMcallStore X0 F dt nt param).hist,
      (GCMcallStore X0 F dt nt param).tseq) = GCM X0 F dt nt param ∧
    ((gcmClassCallStore rhs X0 dt nt p).hist,
      (gcmClassCallStore rhs X0 dt nt p).tseq) =
        gcmClassDriver rhs X0 dt nt p := by
  refine ⟨?_, ?_, ?_, ?_⟩
  · exact GCMloopStore_callerX0 F dt param nt 0 _
  · exact gcmClassLoopStore_callerX0 rhs dt p nt 0 _
  · exact GCMloopStore_agrees F dt param nt 0 _
  · exact gcmClassLoopStore_agrees rhs dt p nt 0 _

/-- Claim C9: implicit invariant of the `GCM` driver: every history row
that is actually filled holds a state whose maximum absolute component is
at most the threshold 1e3 — the state that trips the guard is discarded
before being stored, and rows never filled keep the unset marker. -/
theorem claim_C9_thm (X0 : List ℚ) (F dt : ℚ) (nt : ℕ) (param : List ℚ)
    (j : ℕ) (v : List ℚ)
    (h : (GCM X0 F dt nt param).1[j]? = some (some v)) :
    maxAbs v ≤ 1000 := by
  obtain ⟨t, htle, hbound, hover, hhist, htseq⟩ := GCM_spec X0 F dt nt param
  have hj := hhist j
  by_cases hjt : j < t
  · rw [if_pos hjt, h] at hj
    simp only [Option.some.injEq] at hj
    rw [hj]
    exact hbound j hjt
  · rw [if_neg hjt, h] at hj
    by_cases hjn : j < nt
    · rw [if_pos hjn] at hj; simp at hj
    · rw [if_neg hjn] at hj; simp at hj

/-- Claim C9 witness: the invariant applied to the filled first row `[0]`
of the run `GCM [1] 0 1 1 [0]`. -/
theorem claim_C9_witness : maxAbs [0] ≤ 1000 := by
  apply claim_C9_thm [1] 0 1 1 [0] 0 [0]
  norm_num [GCM, GCMloop, gcmStep, vadd, vsub, smulV, L96_eq1_xdot,
    cyclicGet, polyvalVec, polyval, maxAbs, List.range_succ,
    List.replicate_succ, List.set]

/-- Claim C10: the output of `GCM_without_parameterization.__call__` is
independent of its `param` argument: `param` is only forwarded by the
time-stepping scheme into the second argument of `rhs`, which ignores
it. -/
theorem claim_C10_thm {P : Type} (F : ℚ) (X0 : List ℚ) (dt : ℚ) (nt : ℕ)
    (p1 p2 : P) :
    GCM_without_parameterization F X0 dt nt p1 =
      GCM_without_parameterization F X0 dt nt p2 := by
  simp only [GCM_without_parameterization, gcmClassDriver]
  exact gcmClassLoop_param_irrel (GCM_wp_rhs F) (fun X p q => rfl) dt p1 p2
    nt 0 X0 _ _
